import Mathlib

/-!
Verification of the release aggregation and breaking-change inference pipeline
of `src/lib/github.ts`.

Shallow embedding conventions:
- TypeScript strings are Lean `String`s; character-level reasoning goes through
  `String.toList` (`List Char`).
- Date strings (`published_at`) are abstracted to their `new Date(s).getTime()`
  value, modelled as `Int`; all comparisons in the source go through `getTime()`.
- `fetch` responses are modelled by `HttpResp` (status, status text, the two
  response headers the source reads); `Response.ok` is derived from the status
  as in the Fetch standard (`200 <= status < 300`).
- The upstream GitHub API is an oracle (`Upstream`): a total function from page
  number to response, plus oracles for commit-date resolution (which in the
  source never fails: it degrades to "now") and for `Math.random` id fallback.
- The unbounded `while (hasMore)` pagination loops are modelled with explicit
  fuel; exhausted fuel returns `none`, so every theorem quantifies only over
  completed runs.
- Thrown `Error`s become `Except GitHubError`; the three classified failure
  shapes keep the data their messages carry.
-/

namespace BreakingChanges

/-! ## Generic string/list helpers modelling JavaScript primitives -/

/-- JavaScript `String.prototype.includes(pat)` on char lists: `pat` occurs as a
contiguous substring of `s`. -/
def containsChars (s pat : List Char) : Bool :=
  match s with
  | [] => pat.isEmpty
  | c :: rest => pat.isPrefixOf (c :: rest) || containsChars rest pat

/-- ASCII-fold a char list, modelling a case-insensitive regex test. -/
def toLowerChars (l : List Char) : List Char := l.map Char.toLower

/-- Case-sensitive substring test on strings. -/
def containsStr (s pat : String) : Bool := containsChars s.toList pat.toList

/-- Case-insensitive substring test: `pat` (given lower-case) occurs in `s`
ignoring case, modelling a `/pat/i` regex test. -/
def containsCI (s pat : String) : Bool := containsChars (toLowerChars s.toList) pat.toList

/-- JavaScript `String.prototype.trim()` on char lists (whitespace stripped from
both ends). -/
def trimChars (l : List Char) : List Char :=
  ((l.dropWhile Char.isWhitespace).reverse.dropWhile Char.isWhitespace).reverse

/-! ## Data model (`src/lib/types.ts`) -/

/-- Model of `GitHubRepoInfo` from `types.ts`. -/
structure GitHubRepoInfo where
  owner : String
  repo : String
  deriving DecidableEq, Repr

/-- Model of `GitHubRelease` from `types.ts`.  `published_at` is the parsed timestamp
(see file header); the optional `breaking_change?` field is an `Option Bool`. -/
structure GitHubRelease where
  id : Int
  name : String
  tag_name : String
  published_at : Int
  body : String
  draft : Bool
  prerelease : Bool
  html_url : String
  breaking_change : Option Bool
  deriving DecidableEq, Repr

/-- Model of `ProcessedReleasesResult` from `types.ts`. -/
structure ProcessedReleasesResult where
  releases : List GitHubRelease
  hasReleaseNotes : Bool
  usingTags : Bool
  deriving DecidableEq, Repr

/-- The `GitHubTag` shape from `github.ts` (commit object flattened to its two
fields). -/
structure GitHubTag where
  name : String
  commitSha : String
  commitUrl : String
  zipball_url : String
  tarball_url : String
  deriving DecidableEq, Repr

/-! ## Breaking-change classifier (`detectBreakingChange`, github.ts:86-101) -/

/-- Model of `detectBreakingChange`: false on an empty (falsy) body, otherwise true iff
any of the seven regex patterns matches.  `/breaking changes?/i` matches iff the
body contains `"breaking change"` case-insensitively (the optional `s` never
changes containment), and `/deprecat(ed|ion)/i` matches iff the body contains
`"deprecated"` or `"deprecation"` case-insensitively. -/
def detectBreakingChange (body : String) : Bool :=
  if body = "" then false
  else
    containsCI body "breaking change" ||
    containsCI body "**breaking**" ||
    containsStr body "BREAKING CHANGE" ||
    containsCI body "incompatible" ||
    containsCI body "not backward compatible" ||
    containsCI body "dropped support" ||
    containsCI body "deprecated" ||
    containsCI body "deprecation"

/-! ## `processReleases` (github.ts:106-133) -/

/-- Start of the tag placeholder pattern recognised by the meaningful-notes
check. -/
def tagPlaceholderStart : String := "This is a tag ("

/-- End of the tag placeholder pattern recognised by the meaningful-notes
check. -/
def tagPlaceholderEnd : String := "without release notes."

/-- The per-release test inside `releases.some(...)` of `processReleases`
(github.ts:114-126): skip empty bodies, whitespace-only bodies, bodies matching
the tag placeholder pattern, and trimmed bodies shorter than 20 characters. -/
def meaningfulNotes (release : GitHubRelease) : Bool :=
  if release.body = "" then false
  else if trimChars release.body.toList = [] then false
  else if tagPlaceholderStart.toList.isPrefixOf release.body.toList
          && tagPlaceholderEnd.toList.isSuffixOf release.body.toList then false
  else if (trimChars release.body.toList).length < 20 then false
  else true

/-- The spread-update `{...release, breaking_change: detectBreakingChange(release.body)}`
applied to each release (github.ts:108-111). -/
def applyBreakingFlag (release : GitHubRelease) : GitHubRelease :=
  { release with breaking_change := some (detectBreakingChange release.body) }

/-- Model of `processReleases` (github.ts:106-133). -/
def processReleases (releases : List GitHubRelease) (usingTags : Bool) :
    ProcessedReleasesResult :=
  { releases := releases.map applyBreakingFlag
    hasReleaseNotes := releases.any meaningfulNotes
    usingTags := usingTags }

/-! ## Claim C9 -/

/-- C9: `detectBreakingChange` returns true for every body containing the
substring "breaking change" under case-insensitive comparison, and returns
false for the empty body. -/
theorem detectBreakingChange_contains_breaking (body : String)
    (h : containsCI body "breaking change" = true) :
    detectBreakingChange body = true ∧ detectBreakingChange "" = false := by
  refine ⟨?_, by decide⟩
  by_cases hb : body = ""
  · subst hb; exact absurd h (by decide)
  · simp only [detectBreakingChange, if_neg hb, h, Bool.true_or]

/-- Witness for C9 at a concrete input. -/
theorem detectBreakingChange_contains_breaking_witness :
    detectBreakingChange "Note: one Breaking Change in the config." = true ∧
      detectBreakingChange "" = false :=
  detectBreakingChange_contains_breaking "Note: one Breaking Change in the config." (by decide)

/-! ## Claim C10 -/

/-- C10: `processReleases` returns a list of the same length in the same order;
for each position every field other than `breaking_change` is unchanged, and
`breaking_change` is recomputed from the body by the classifier. -/
theorem processReleases_frame (rs : List GitHubRelease) (b : Bool) :
    (processReleases rs b).releases.length = rs.length ∧
    ∀ i : Nat,
      ((processReleases rs b).releases[i]?).map GitHubRelease.id = (rs[i]?).map GitHubRelease.id ∧
      ((processReleases rs b).releases[i]?).map GitHubRelease.name = (rs[i]?).map GitHubRelease.name ∧
      ((processReleases rs b).releases[i]?).map GitHubRelease.tag_name = (rs[i]?).map GitHubRelease.tag_name ∧
      ((processReleases rs b).releases[i]?).map GitHubRelease.published_at = (rs[i]?).map GitHubRelease.published_at ∧
      ((processReleases rs b).releases[i]?).map GitHubRelease.body = (rs[i]?).map GitHubRelease.body ∧
      ((processReleases rs b).releases[i]?).map GitHubRelease.draft = (rs[i]?).map GitHubRelease.draft ∧
      ((processReleases rs b).releases[i]?).map GitHubRelease.prerelease = (rs[i]?).map GitHubRelease.prerelease ∧
      ((processReleases rs b).releases[i]?).map GitHubRelease.html_url = (rs[i]?).map GitHubRelease.html_url ∧
      ((processReleases rs b).releases[i]?).map GitHubRelease.breaking_change
        = (rs[i]?).map (fun r => some (detectBreakingChange r.body)) := by
  refine ⟨by simp [processReleases], fun i => ?_⟩
  cases h : rs[i]? <;>
    simp [processReleases, List.getElem?_map, h, applyBreakingFlag]

/-! ## Sorting by `published_at` descending

The source sorts with `(a, b) => new Date(b.published_at).getTime() - new
Date(a.published_at).getTime()`.  ECMAScript 2019+ `Array.prototype.sort` is a
stable sort for a consistent comparator, and for a total preorder the stable
sorted permutation is unique, so any stable sort is a faithful model; we use
insertion sort. -/

/-- Insert a release in front of the first element with an equal-or-older
timestamp (stability: among equal timestamps, input order is preserved). -/
def insertByDateDesc (r : GitHubRelease) : List GitHubRelease → List GitHubRelease
  | [] => [r]
  | x :: xs =>
      if x.published_at ≤ r.published_at then r :: x :: xs
      else x :: insertByDateDesc r xs

/-- Stable sort by `published_at`, newest first, modelling the
`sort((a, b) => dateB - dateA)` calls at github.ts:149, 226 and 339. -/
def sortByDateDesc (l : List GitHubRelease) : List GitHubRelease :=
  l.foldr insertByDateDesc []

/-- Boolean check that a release list is ordered by `published_at` descending
(newest first, non-strict). -/
def sortedByDateDesc : List GitHubRelease → Bool
  | [] => true
  | [_] => true
  | a :: b :: rest =>
      decide (b.published_at ≤ a.published_at) && sortedByDateDesc (b :: rest)

theorem mem_insertByDateDesc {a r : GitHubRelease} {l : List GitHubRelease} :
    a ∈ insertByDateDesc r l ↔ a = r ∨ a ∈ l := by
  induction l with
  | nil => simp [insertByDateDesc]
  | cons x xs ih =>
      by_cases h : x.published_at ≤ r.published_at
      · simp [insertByDateDesc, h]
      · simp [insertByDateDesc, h, ih]
        tauto

theorem mem_sortByDateDesc {a : GitHubRelease} {l : List GitHubRelease} :
    a ∈ sortByDateDesc l ↔ a ∈ l := by
  induction l with
  | nil => simp [sortByDateDesc]
  | cons x xs ih =>
      simp only [sortByDateDesc, List.foldr_cons] at *
      rw [mem_insertByDateDesc, ih, List.mem_cons]

theorem length_insertByDateDesc (r : GitHubRelease) (l : List GitHubRelease) :
    (insertByDateDesc r l).length = l.length + 1 := by
  induction l with
  | nil => rfl
  | cons x xs ih =>
      by_cases h : x.published_at ≤ r.published_at <;>
        simp [insertByDateDesc, h, ih]

theorem length_sortByDateDesc (l : List GitHubRelease) :
    (sortByDateDesc l).length = l.length := by
  induction l with
  | nil => rfl
  | cons x xs ih =>
      simp only [sortByDateDesc, List.foldr_cons] at *
      rw [length_insertByDateDesc, ih]
      rfl

theorem sortedByDateDesc_insert {r : GitHubRelease} {l : List GitHubRelease}
    (h : sortedByDateDesc l = true) :
    sortedByDateDesc (insertByDateDesc r l) = true := by
  induction l with
  | nil => rfl
  | cons x xs ih =>
      by_cases hx : x.published_at ≤ r.published_at
      · simpa [insertByDateDesc, hx, sortedByDateDesc] using h
      · have hxr : r.published_at ≤ x.published_at := le_of_not_le hx
        cases xs with
        | nil => simp [insertByDateDesc, hx, sortedByDateDesc, hxr]
        | cons y ys =>
            have htail : sortedByDateDesc (y :: ys) = true := by
              simp only [sortedByDateDesc, Bool.and_eq_true] at h
              exact h.2
            have hxy : y.published_at ≤ x.published_at := by
              simp only [sortedByDateDesc, Bool.and_eq_true, decide_eq_true_eq] at h
              exact h.1
            have hins := ih htail
            by_cases hy : y.published_at ≤ r.published_at
            · simp [insertByDateDesc, hx, hy, sortedByDateDesc, hxr] at *
              exact hins
            · simp only [insertByDateDesc, if_neg hx, if_neg hy] at hins ⊢
              simp [sortedByDateDesc, hxy] at *
              exact hins

theorem sortedByDateDesc_sort (l : List GitHubRelease) :
    sortedByDateDesc (sortByDateDesc l) = true := by
  induction l with
  | nil => rfl
  | cons x xs ih =>
      simp only [sortByDateDesc, List.foldr_cons] at *
      exact sortedByDateDesc_insert ih

/-! ## Range selection (`getReleasesBetweenVersions`, github.ts:143-166) -/

/-- Model of `getReleasesBetweenVersions`: defensively re-sort, locate both tags with
`findIndex` (modelled by `findIdx?`, `-1` becoming `none`), return `[]` if
either is absent, else the inclusive slice `slice(startIdx, endIdx + 1)`
between the smaller and larger index. -/
def getReleasesBetweenVersions (releases : List GitHubRelease)
    (currentVersion targetVersion : String) : List GitHubRelease :=
  let sortedReleases := sortByDateDesc releases
  match List.findIdx? (fun r => r.tag_name = currentVersion) sortedReleases,
        List.findIdx? (fun r => r.tag_name = targetVersion) sortedReleases with
  | some currentIdx, some targetIdx =>
      (sortedReleases.drop (min currentIdx targetIdx)).take
        (max currentIdx targetIdx + 1 - min currentIdx targetIdx)
  | _, _ => []

/-! ## Claim C2 -/

/-- C2: for tags A and B both occurring in the release list, the selected range
is independent of argument order. -/
theorem getReleasesBetweenVersions_comm (releases : List GitHubRelease) (A B : String)
    (hA : A ∈ releases.map GitHubRelease.tag_name)
    (hB : B ∈ releases.map GitHubRelease.tag_name) :
    getReleasesBetweenVersions releases A B = getReleasesBetweenVersions releases B A := by
  unfold getReleasesBetweenVersions
  cases h1 : List.findIdx? (fun r => r.tag_name = A) (sortByDateDesc releases) <;>
    cases h2 : List.findIdx? (fun r => r.tag_name = B) (sortByDateDesc releases) <;>
      simp [h1, h2, Nat.min_comm, Nat.max_comm]

/-- Witness for C2 at a concrete input. -/
theorem getReleasesBetweenVersions_comm_witness :
    getReleasesBetweenVersions
        [{ id := 1, name := "one", tag_name := "v1", published_at := 10, body := "",
           draft := false, prerelease := false, html_url := "u1", breaking_change := none },
         { id := 2, name := "two", tag_name := "v2", published_at := 20, body := "",
           draft := false, prerelease := false, html_url := "u2", breaking_change := none },
         { id := 3, name := "three", tag_name := "v3", published_at := 30, body := "",
           draft := false, prerelease := false, html_url := "u3", breaking_change := none }]
        "v1" "v3"
      = getReleasesBetweenVersions
        [{ id := 1, name := "one", tag_name := "v1", published_at := 10, body := "",
           draft := false, prerelease := false, html_url := "u1", breaking_change := none },
         { id := 2, name := "two", tag_name := "v2", published_at := 20, body := "",
           draft := false, prerelease := false, html_url := "u2", breaking_change := none },
         { id := 3, name := "three", tag_name := "v3", published_at := 30, body := "",
           draft := false, prerelease := false, html_url := "u3", breaking_change := none }]
        "v3" "v1" :=
  getReleasesBetweenVersions_comm _ "v1" "v3" (by decide) (by decide)

/-! ## Claim C8 -/

theorem findIdx?_tag_absent {v : String} {l : List GitHubRelease}
    (h : v ∉ l.map GitHubRelease.tag_name) :
    List.findIdx? (fun r => r.tag_name = v) l = none := by
  rw [List.findIdx?_eq_none_iff]
  intro x hx
  simp only [List.mem_map] at h
  by_contra hxv
  simp only [decide_eq_false_iff_not, not_not] at hxv
  exact h ⟨x, hx, hxv⟩

/-- C8: if either version label is absent from the release list,
`getReleasesBetweenVersions` returns the empty list. -/
theorem getReleasesBetweenVersions_absent (releases : List GitHubRelease) (A B : String)
    (h : A ∉ releases.map GitHubRelease.tag_name ∨ B ∉ releases.map GitHubRelease.tag_name) :
    getReleasesBetweenVersions releases A B = [] := by
  have hmem : ∀ v : String, v ∉ releases.map GitHubRelease.tag_name →
      v ∉ (sortByDateDesc releases).map GitHubRelease.tag_name := by
    intro v hv hmem
    apply hv
    simp only [List.mem_map] at hmem ⊢
    obtain ⟨r, hr, hrv⟩ := hmem
    exact ⟨r, mem_sortByDateDesc.mp hr, hrv⟩
  rcases h with h | h
  · have hn := findIdx?_tag_absent (hmem A h)
    simp [getReleasesBetweenVersions, hn]
  · have hn := findIdx?_tag_absent (hmem B h)
    cases h1 : List.findIdx? (fun r => r.tag_name = A) (sortByDateDesc releases) <;>
      simp [getReleasesBetweenVersions, hn, h1]

/-- Witness for C8 at a concrete input. -/
theorem getReleasesBetweenVersions_absent_witness :
    getReleasesBetweenVersions
      [{ id := 1, name := "one", tag_name := "v1", published_at := 10, body := "",
         draft := false, prerelease := false, html_url := "u1", breaking_change := none }]
      "v1" "v9" = [] :=
  getReleasesBetweenVersions_absent _ "v1" "v9" (Or.inr (by decide))

/-! ## Forge client model (`fetch` responses, error classification) -/

/-- The parts of a `fetch` `Response` the source reads: status, status text and
the two headers `x-ratelimit-remaining` and `link` (absent header = `none`). -/
structure HttpResp where
  status : Nat
  statusText : String
  rateLimitRemaining : Option String
  linkHeader : Option String
  deriving DecidableEq, Repr

/-- The `Response.ok` test per the Fetch standard: status in the 2xx range. -/
def respOk (resp : HttpResp) : Bool :=
  decide (200 ≤ resp.status) && decide (resp.status < 300)

/-- The three thrown-`Error` shapes of github.ts:195-203 / 305-313, keeping the
data their messages carry. -/
inductive GitHubError where
  | repoNotFound (owner repo : String)
  | rateLimited
  | upstreamError (status : Nat) (statusText : String)
  deriving DecidableEq, Repr

/-- Error classification on a non-ok response (github.ts:195-203, identical at
305-313): 404 → repo not found; 403 with `x-ratelimit-remaining === '0'` →
rate limited; otherwise a generic upstream error with status and text. -/
def classifyFailure (owner repo : String) (resp : HttpResp) : GitHubError :=
  if resp.status = 404 then GitHubError.repoNotFound owner repo
  else if resp.status = 403 ∧ resp.rateLimitRemaining = some "0" then GitHubError.rateLimited
  else GitHubError.upstreamError resp.status resp.statusText

/-- Model of `hasNextPage` (github.ts:75-78): a `Link` header containing `rel="next"`. -/
def hasNextPage (linkHeader : Option String) : Bool :=
  match linkHeader with
  | none => false
  | some s => containsStr s "rel=\"next\""

/-- The upstream GitHub API as an oracle: a total response for every page of
the two listing endpoints, the resolved commit date per commit URL (the
source's `fetchCommitDetails` never fails — it degrades to "now"), and the
`Math.random()`-based id fallback keyed by commit sha. -/
structure Upstream where
  releasesPage : Nat → HttpResp × List GitHubRelease
  tagsPage : Nat → HttpResp × List GitHubTag
  commitDate : String → Int
  randomId : String → Int

/-- The `while (hasMore)` pagination loop shared by `fetchAllReleases`
(github.ts:189-217) and `fetchAllTags` (github.ts:299-327): fetch the page; on
a non-ok response throw the classified error; otherwise accumulate the items
and continue iff the Link header announces a next page and the page was
non-empty.  `fuel` bounds the number of iterations; exhaustion yields `none`. -/
def fetchPagesLoop {α : Type} (pageAt : Nat → HttpResp × List α) (owner repo : String) :
    Nat → Nat → List α → Option (Except GitHubError (List α))
  | 0, _, _ => none
  | fuel + 1, page, acc =>
      let resp := (pageAt page).1
      let items := (pageAt page).2
      if respOk resp then
        if hasNextPage resp.linkHeader && !items.isEmpty then
          fetchPagesLoop pageAt owner repo fuel (page + 1) (acc ++ items)
        else some (Except.ok (acc ++ items))
      else some (Except.error (classifyFailure owner repo resp))

/-! ## Tag normalizer (`convertTagToRelease`, github.ts:273-288) -/

/-- Value of a hex digit, `none` for non-hex characters. -/
def hexDigitVal (c : Char) : Option Nat :=
  if '0' ≤ c ∧ c ≤ '9' then some (c.toNat - 48)
  else if 'a' ≤ c ∧ c ≤ 'f' then some (c.toNat - 87)
  else if 'A' ≤ c ∧ c ≤ 'F' then some (c.toNat - 55)
  else none

/-- Accumulate the longest leading run of hex digits. -/
def parseHexValue (acc : Nat) : List Char → Nat
  | [] => acc
  | c :: rest =>
      match hexDigitVal c with
      | none => acc
      | some v => parseHexValue (acc * 16 + v) rest

/-- Semantics of `parseInt(s, 16)`: parse the longest leading run of hex digits, `none`
(JavaScript `NaN`) when there is none. -/
def parseHexDigits : List Char → Option Nat
  | [] => none
  | c :: rest =>
      match hexDigitVal c with
      | none => none
      | some v => some (parseHexValue v rest)

/-- Semantics of `parseInt(sha.substring(0, 8), 16) || random`: `NaN` and `0` are falsy, so
both fall back to the random id (github.ts:278). -/
def tagReleaseId (randomFallback : Int) (sha : String) : Int :=
  match parseHexDigits (sha.toList.take 8) with
  | none => randomFallback
  | some n => if n = 0 then randomFallback else (n : Int)

/-- Leftmost occurrence index of `pat` in a char list (JavaScript-style
substring search). -/
def findSubIdx (pat : List Char) : List Char → Option Nat
  | [] => if pat.isEmpty then some 0 else none
  | c :: rest =>
      if pat.isPrefixOf (c :: rest) then some 0
      else (findSubIdx pat rest).map (· + 1)

/-- JavaScript `s.split(pat)[0]`: everything before the first occurrence of
`pat`, or all of `s` when `pat` does not occur. -/
def takeUntilSub (pat l : List Char) : List Char :=
  match findSubIdx pat l with
  | some i => l.take i
  | none => l

/-- Model of `convertTagToRelease` (github.ts:273-288), with the commit-date fetch and
the random id fallback supplied by the upstream oracle. -/
def convertTagToRelease (u : Upstream) (tag : GitHubTag) : GitHubRelease :=
  { id := tagReleaseId (u.randomId tag.commitSha) tag.commitSha
    name := tag.name
    tag_name := tag.name
    published_at := u.commitDate tag.commitUrl
    body := "This is a tag (" ++ tag.name ++ ") without release notes."
    draft := false
    prerelease := containsStr tag.name "alpha" || containsStr tag.name "beta"
      || containsStr tag.name "rc"
    html_url := String.mk (takeUntilSub "/zipball".toList tag.zipball_url.toList)
      ++ "/releases/tag/" ++ tag.name
    breaking_change := some false }

/-! ## Release aggregator (`fetchAllReleases` / `fetchAllTags`) -/

/-- Model of `fetchAllTags` (github.ts:293-345): page through the tag listing; zero tags
yields the empty result with `usingTags = true`; otherwise convert the 50 most
recent tags, sort newest first and run `processReleases` with
`usingTags = true`. -/
def fetchAllTags (u : Upstream) (owner repo : String) (fuel : Nat) :
    Option (Except GitHubError ProcessedReleasesResult) :=
  match fetchPagesLoop u.tagsPage owner repo fuel 1 [] with
  | none => none
  | some (Except.error e) => some (Except.error e)
  | some (Except.ok allTags) =>
      if allTags.isEmpty then
        some (Except.ok { releases := [], hasReleaseNotes := false, usingTags := true })
      else
        some (Except.ok (processReleases
          (sortByDateDesc ((allTags.take 50).map (convertTagToRelease u))) true))

/-- Model of `fetchAllReleases` (github.ts:183-232), the aggregation entry point: page
through the release listing; zero releases falls back to `fetchAllTags`;
otherwise sort newest first and run `processReleases` with
`usingTags = false`. -/
def fetchAllReleases (u : Upstream) (owner repo : String) (fuel : Nat) :
    Option (Except GitHubError ProcessedReleasesResult) :=
  match fetchPagesLoop u.releasesPage owner repo fuel 1 [] with
  | none => none
  | some (Except.error e) => some (Except.error e)
  | some (Except.ok allReleases) =>
      if allReleases.isEmpty then fetchAllTags u owner repo fuel
      else some (Except.ok (processReleases (sortByDateDesc allReleases) false))

deriving instance DecidableEq for Except

/-! ## Claim C6 -/

theorem sortedByDateDesc_map_applyBreakingFlag (l : List GitHubRelease) :
    sortedByDateDesc (l.map applyBreakingFlag) = sortedByDateDesc l := by
  induction l with
  | nil => rfl
  | cons x xs ih =>
      cases xs with
      | nil => rfl
      | cons y ys =>
          simp only [List.map_cons, sortedByDateDesc] at *
          rw [ih]
          rfl

theorem processReleases_sorted (l : List GitHubRelease) (b : Bool) :
    sortedByDateDesc (processReleases (sortByDateDesc l) b).releases = true := by
  simp only [processReleases]
  rw [sortedByDateDesc_map_applyBreakingFlag]
  exact sortedByDateDesc_sort l

theorem fetchAllTags_sorted (u : Upstream) (owner repo : String) (fuel : Nat)
    (res : ProcessedReleasesResult)
    (h : fetchAllTags u owner repo fuel = some (Except.ok res)) :
    sortedByDateDesc res.releases = true := by
  unfold fetchAllTags at h
  cases hloop : fetchPagesLoop u.tagsPage owner repo fuel 1 [] with
  | none => simp [hloop] at h
  | some exc =>
      cases exc with
      | error e => simp [hloop] at h
      | ok allTags =>
          by_cases he : allTags.isEmpty <;> simp [hloop, he] at h <;> subst h
          · rfl
          · exact processReleases_sorted _ true

/-- C6: every successfully aggregated result — releases-sourced or
tag-sourced — has its release list ordered by `published_at` descending. -/
theorem aggregate_sorted (u : Upstream) (owner repo : String) (fuel : Nat)
    (res : ProcessedReleasesResult)
    (h : fetchAllReleases u owner repo fuel = some (Except.ok res)) :
    sortedByDateDesc res.releases = true := by
  unfold fetchAllReleases at h
  cases hloop : fetchPagesLoop u.releasesPage owner repo fuel 1 [] with
  | none => simp [hloop] at h
  | some exc =>
      cases exc with
      | error e => simp [hloop] at h
      | ok allReleases =>
          by_cases he : allReleases.isEmpty
          · simp only [hloop, he, if_pos] at h
            exact fetchAllTags_sorted u owner repo fuel res h
          · simp [hloop, he] at h
            subst h
            exact processReleases_sorted _ false

/-- A 200 response with no interesting headers. -/
def okResp : HttpResp :=
  { status := 200, statusText := "OK", rateLimitRemaining := none, linkHeader := none }

/-- Shorthand for building release records in concrete scenarios. -/
def mkRel (i : Int) (tag : String) (t : Int) (b : String) : GitHubRelease :=
  { id := i, name := "", tag_name := tag, published_at := t, body := b,
    draft := false, prerelease := false, html_url := "", breaking_change := none }

/-- Upstream with one page of two out-of-order releases and no tags. -/
def uTwoReleases : Upstream :=
  { releasesPage := fun _ => (okResp, [mkRel 1 "v1" 5 "", mkRel 2 "v2" 9 ""])
    tagsPage := fun _ => (okResp, [])
    commitDate := fun _ => 0
    randomId := fun _ => 0 }

/-- Witness for C6 at a concrete input. -/
theorem aggregate_sorted_witness :
    sortedByDateDesc (processReleases
      (sortByDateDesc [mkRel 1 "v1" 5 "", mkRel 2 "v2" 9 ""]) false).releases = true :=
  aggregate_sorted uTwoReleases "o" "r" 1
    (processReleases (sortByDateDesc [mkRel 1 "v1" 5 "", mkRel 2 "v2" 9 ""]) false)
    (by decide)

/-! ## Claim C7 -/

theorem fetchPagesLoop_error {α : Type} (pageAt : Nat → HttpResp × List α)
    (owner repo : String) :
    ∀ (fuel page : Nat) (acc : List α) (e : GitHubError),
      fetchPagesLoop pageAt owner repo fuel page acc = some (Except.error e) →
      ∃ resp : HttpResp, respOk resp = false ∧ e = classifyFailure owner repo resp := by
  intro fuel
  induction fuel with
  | zero => intro page acc e h; simp [fetchPagesLoop] at h
  | succ f ih =>
      intro page acc e h
      simp only [fetchPagesLoop] at h
      by_cases hok : respOk (pageAt page).1
      · simp only [hok, if_pos] at h
        by_cases hnext : (hasNextPage (pageAt page).1.linkHeader && !(pageAt page).2.isEmpty) = true
        · rw [if_pos hnext] at h
          exact ih _ _ _ h
        · rw [if_neg hnext] at h
          simp at h
      · rw [if_neg hok] at h
        simp only [Option.some.injEq, Except.error.injEq] at h
        exact ⟨(pageAt page).1, by simpa using hok, h.symm⟩

theorem fetchAllTags_error (u : Upstream) (owner repo : String) (fuel : Nat)
    (e : GitHubError) (h : fetchAllTags u owner repo fuel = some (Except.error e)) :
    ∃ resp : HttpResp, respOk resp = false ∧ e = classifyFailure owner repo resp := by
  unfold fetchAllTags at h
  cases hloop : fetchPagesLoop u.tagsPage owner repo fuel 1 [] with
  | none => simp [hloop] at h
  | some exc =>
      cases exc with
      | error e' =>
          simp only [hloop, Option.some.injEq, Except.error.injEq] at h
          subst h
          exact fetchPagesLoop_error u.tagsPage owner repo fuel 1 [] e' hloop
      | ok allTags => by_cases he : allTags.isEmpty <;> simp [hloop, he] at h

/-- C7: whenever aggregation fails, the failure comes from some non-success
page response during the releases phase or the tag-fallback phase, classified
by the 404 / 403-with-zero-quota / generic taxonomy; no partial result is
returned (the error is the entire outcome), and a non-success page response
aborts the pagination loop immediately with that classified error. -/
theorem aggregate_error_taxonomy (u : Upstream) (owner repo : String) (fuel : Nat) :
    (∀ e : GitHubError, fetchAllReleases u owner repo fuel = some (Except.error e) →
        ∃ resp : HttpResp, respOk resp = false ∧ e = classifyFailure owner repo resp) ∧
    (∀ (pageAt : Nat → HttpResp × List GitHubRelease) (f page : Nat)
        (acc : List GitHubRelease), respOk (pageAt page).1 = false →
        fetchPagesLoop pageAt owner repo (f + 1) page acc
          = some (Except.error (classifyFailure owner repo (pageAt page).1))) ∧
    (∀ resp : HttpResp, classifyFailure owner repo resp
        = if resp.status = 404 then GitHubError.repoNotFound owner repo
          else if resp.status = 403 ∧ resp.rateLimitRemaining = some "0" then
            GitHubError.rateLimited
          else GitHubError.upstreamError resp.status resp.statusText) := by
  refine ⟨?_, ?_, fun _ => rfl⟩
  · intro e h
    unfold fetchAllReleases at h
    cases hloop : fetchPagesLoop u.releasesPage owner repo fuel 1 [] with
    | none => simp [hloop] at h
    | some exc =>
        cases exc with
        | error e' =>
            simp only [hloop, Option.some.injEq, Except.error.injEq] at h
            subst h
            exact fetchPagesLoop_error u.releasesPage owner repo fuel 1 [] e' hloop
        | ok allReleases =>
            by_cases he : allReleases.isEmpty
            · simp only [hloop, he, if_pos] at h
              exact fetchAllTags_error u owner repo fuel e h
            · simp [hloop, he] at h
  · intro pageAt f page acc hbad
    simp [fetchPagesLoop, hbad]

/-- Upstream whose release listing answers 404. -/
def u404 : Upstream :=
  { releasesPage := fun _ =>
      ({ status := 404, statusText := "Not Found", rateLimitRemaining := none,
         linkHeader := none }, [])
    tagsPage := fun _ => (okResp, [])
    commitDate := fun _ => 0
    randomId := fun _ => 0 }

/-- Witness for C7 at a concrete input. -/
theorem aggregate_error_taxonomy_witness :
    ∃ resp : HttpResp, respOk resp = false ∧
      GitHubError.repoNotFound "o" "r" = classifyFailure "o" "r" resp :=
  (aggregate_error_taxonomy u404 "o" "r" 1).1 (GitHubError.repoNotFound "o" "r") (by decide)

/-! ## Claim C1 -/

/-- A tag whose name is itself a breaking-change signal word. -/
def tagIncompatible : GitHubTag :=
  { name := "incompatible", commitSha := "00000001abc", commitUrl := "cu",
    zipball_url := "https://x/zipball/v", tarball_url := "t" }

/-- Upstream with zero releases and exactly one tag, named "incompatible". -/
def uC1 : Upstream :=
  { releasesPage := fun _ => (okResp, [])
    tagsPage := fun _ => (okResp, [tagIncompatible])
    commitDate := fun _ => 100
    randomId := fun _ => 7 }

/-- C1 failing input: a repository with zero releases and one tag named
"incompatible".  The aggregate result is tag-sourced with exactly one release,
but its `breaking_change` flag is `true`, because `fetchAllTags` routes the
tag-derived releases through `processReleases`, which re-runs the classifier
over the synthesized placeholder body "This is a tag (incompatible) without
release notes." — which matches the `/incompatible/i` pattern — overwriting
the `breaking_change: false` set by `convertTagToRelease`. -/
theorem tagFallback_isBreaking_failing_input :
    (fetchAllReleases uC1 "o" "r" 1).map (Except.map
        (fun res => (res.usingTags, res.releases.map GitHubRelease.breaking_change)))
      = some (Except.ok (true, [some true])) := by decide

/-! ## Claim C5 -/

/-- Following the claim's wording (for comparison with the code): the body is
non-empty, is not the synthesized tag placeholder text (which for a release
embeds its own tag name), and is at least 20 characters long after trimming
whitespace. -/
def meaningfulPerClaim (r : GitHubRelease) : Bool :=
  !(decide (r.body = ""))
    && !(decide (r.body = "This is a tag (" ++ r.tag_name ++ ") without release notes."))
    && decide (20 ≤ (trimChars r.body.toList).length)

/-- A body that matches the placeholder pattern without being the synthesized
placeholder text. -/
def relC5 : GitHubRelease :=
  mkRel 1 "v1" 0 "This is a tag (v1) with extra important details without release notes."

/-- C5 counterexample: the code's meaningful-notes test rejects any body that
merely starts with "This is a tag (" and ends with "without release notes.",
so `hasReleaseNotes` is false for `relC5` although its body is non-empty, is
not the synthesized placeholder text, and has a trimmed length of at least
20 — the claimed iff fails at this input. -/
theorem hasMeaningfulNotes_counterexample :
    (processReleases [relC5] false).hasReleaseNotes ≠ [relC5].any meaningfulPerClaim := by
  decide

theorem meaningfulNotes_eq (r : GitHubRelease) :
    meaningfulNotes r
      = (!(tagPlaceholderStart.toList.isPrefixOf r.body.toList
            && tagPlaceholderEnd.toList.isSuffixOf r.body.toList)
          && decide (20 ≤ (trimChars r.body.toList).length)) := by
  unfold meaningfulNotes
  by_cases h1 : r.body = ""
  · rw [h1]; decide
  · rw [if_neg h1]
    by_cases h2 : trimChars r.body.toList = []
    · rw [if_pos h2, h2]
      rw [decide_eq_false (by decide : ¬(20 ≤ ([] : List Char).length))]
      rw [Bool.and_false]
    · rw [if_neg h2]
      by_cases h3 : (tagPlaceholderStart.toList.isPrefixOf r.body.toList
          && tagPlaceholderEnd.toList.isSuffixOf r.body.toList) = true
      · rw [if_pos h3, h3]
        rw [Bool.not_true, Bool.false_and]
      · rw [if_neg h3]
        by_cases h4 : (trimChars r.body.toList).length < 20
        · rw [if_pos h4, decide_eq_false (Nat.not_le.mpr h4), Bool.and_false]
        · rw [if_neg h4, decide_eq_true (Nat.le_of_not_lt h4), Bool.and_true]
          cases hab : (tagPlaceholderStart.toList.isPrefixOf r.body.toList
              && tagPlaceholderEnd.toList.isSuffixOf r.body.toList) with
          | false => rfl
          | true => exact absurd hab h3

/-- C5 amended: `hasReleaseNotes` is true iff at least one release's body does
not match the placeholder pattern (starting with "This is a tag (" and ending
with "without release notes.") and is at least 20 characters long after
trimming whitespace (which already forces it to be non-empty). -/
theorem hasMeaningfulNotes_iff (rs : List GitHubRelease) (b : Bool) :
    (processReleases rs b).hasReleaseNotes
      = rs.any (fun r =>
          !(tagPlaceholderStart.toList.isPrefixOf r.body.toList
              && tagPlaceholderEnd.toList.isSuffixOf r.body.toList)
            && decide (20 ≤ (trimChars r.body.toList).length)) := by
  have hfun : meaningfulNotes = fun r =>
      (!(tagPlaceholderStart.toList.isPrefixOf r.body.toList
          && tagPlaceholderEnd.toList.isSuffixOf r.body.toList)
        && decide (20 ≤ (trimChars r.body.toList).length)) :=
    funext meaningfulNotes_eq
  simp only [processReleases, hfun]

/-! ## JavaScript `String.prototype.split` -/

/-- Fuel-bounded splitting: cut at the leftmost occurrence of `sep`, recurse on
what follows it. -/
def jsSplitAux (sep : List Char) : Nat → List Char → List (List Char)
  | 0, s => [s]
  | fuel + 1, s =>
      match findSubIdx sep s with
      | none => [s]
      | some i => s.take i :: jsSplitAux sep fuel (s.drop (i + sep.length))

/-- JavaScript `s.split(sep)` for a non-empty separator: repeatedly cut at the
leftmost occurrence.  Fuel `s.length` always suffices because every cut
consumes at least `sep.length ≥ 1` characters.  (The source never splits on an
empty separator; that case is guarded off.) -/
def jsSplitList (sep s : List Char) : List (List Char) :=
  if sep.isEmpty then [s] else jsSplitAux sep s.length s

/-- Version of `jsSplitList` on strings. -/
def jsSplit (s sep : String) : List String :=
  (jsSplitList sep.toList s.toList).map String.mk

/-! ## URL parser (`parseGitHubUrl`, github.ts:9-39) -/

/-- Hostname and pathname of a successfully constructed `new URL(url.trim())`.
The WHATWG URL parser is an external platform API; `parseGitHubUrl` takes its
outcome (`none` = the constructor threw). -/
structure UrlParts where
  hostname : String
  pathname : String
  deriving DecidableEq, Repr

/-- Model of `.replace(/\.git$/, '')` (github.ts:21): strip one trailing ".git". -/
def stripDotGitChars (l : List Char) : List Char :=
  if ['.', 'g', 'i', 't'].isSuffixOf l then l.take (l.length - 4) else l

/-- Model of `.replace(/\/+$/, '')` (github.ts:22): strip all trailing slashes. -/
def stripSlashesChars (l : List Char) : List Char :=
  (l.reverse.dropWhile (fun c => c == '/')).reverse

/-- The path cleaning of `parseGitHubUrl` (github.ts:20-24): strip one trailing
".git", then trailing slashes, split on "/", drop empty segments. -/
def cleanPathSegments (p : String) : List String :=
  ((jsSplitList ['/'] (stripSlashesChars (stripDotGitChars p.toList))).filter
      (fun seg => !seg.isEmpty)).map String.mk

/-- Model of `parseGitHubUrl` (github.ts:9-39): `none` when URL construction failed or
the host is not github.com or fewer than two non-empty segments remain;
otherwise the first two cleaned segments, verbatim. -/
def parseGitHubUrl (u : Option UrlParts) : Option GitHubRepoInfo :=
  match u with
  | none => none
  | some parts =>
      if parts.hostname = "github.com" then
        match cleanPathSegments parts.pathname with
        | owner :: repo :: _ => some { owner := owner, repo := repo }
        | _ => none
      else none

/-! ## Claim C4 -/

/-- A parsed URL on the expected forge host with the given path. -/
def ghUrl (p : String) : Option UrlParts :=
  some { hostname := "github.com", pathname := p }

/-- C4 counterexample: with both a trailing ".git" and a trailing slash the
result differs from the bare path.  The source strips ".git" before it strips
trailing slashes, so "/facebook/react.git/" parses to project "react.git"
while "/facebook/react" parses to project "react" — the claimed invariance
under ".git" and/or trailing slashes fails. -/
theorem parseGitHubUrl_counterexample :
    parseGitHubUrl (ghUrl "/facebook/react.git/") ≠ parseGitHubUrl (ghUrl "/facebook/react") := by
  decide

theorem stripDotGit_append_git (l : List Char) :
    stripDotGitChars (l ++ ['.', 'g', 'i', 't']) = l := by
  unfold stripDotGitChars
  rw [if_pos (List.isSuffixOf_iff_suffix.mpr (List.suffix_append l _))]
  rw [List.length_append]
  norm_num

theorem stripDotGit_of_not_suffix {l : List Char}
    (h : ['.', 'g', 'i', 't'].isSuffixOf l = false) : stripDotGitChars l = l := by
  unfold stripDotGitChars
  rw [h]
  rfl

theorem dropWhile_slash_replicate (n : Nat) (l : List Char) :
    List.dropWhile (fun c => c == '/') (List.replicate n '/' ++ l)
      = List.dropWhile (fun c => c == '/') l := by
  induction n with
  | zero => rfl
  | succ m ih =>
      rw [List.replicate_succ, List.cons_append, List.dropWhile_cons]
      simpa using ih

theorem stripSlashes_append_slashes (l : List Char) (k : Nat) :
    stripSlashesChars (l ++ List.replicate (k + 1) '/') = stripSlashesChars l := by
  unfold stripSlashesChars
  rw [List.reverse_append, List.reverse_replicate, dropWhile_slash_replicate]

theorem dotgit_not_suffix_slashes (l : List Char) (k : Nat) :
    ['.', 'g', 'i', 't'].isSuffixOf (l ++ List.replicate (k + 1) '/') = false := by
  by_contra h
  rw [Bool.not_eq_false, List.isSuffixOf_iff_suffix] at h
  obtain ⟨u, hu⟩ := h
  have h1 := congrArg List.getLast? hu
  rw [List.getLast?_append, List.getLast?_append, List.getLast?_replicate] at h1
  simp at h1

/-- C4 amended: for a github.com URL whose path does not already end in ".git"
and cleans to at least two non-empty segments, `parseGitHubUrl` returns the
first two cleaned segments verbatim, and the result is unchanged by appending
a trailing ".git" or by appending trailing slashes — but not by both at once:
".git" followed by slashes is retained in the project segment (see the
counterexample). -/
theorem parseGitHubUrl_amended (p a b : String) (rest : List String) (k : Nat)
    (hsegs : cleanPathSegments p = a :: b :: rest)
    (hgit : ['.', 'g', 'i', 't'].isSuffixOf p.toList = false) :
    parseGitHubUrl (ghUrl p) = some { owner := a, repo := b } ∧
    parseGitHubUrl (ghUrl (p ++ ".git")) = some { owner := a, repo := b } ∧
    parseGitHubUrl (ghUrl (p ++ String.mk (List.replicate (k + 1) '/')))
        = some { owner := a, repo := b } := by
  have hgit2 : cleanPathSegments (p ++ ".git") = cleanPathSegments p := by
    unfold cleanPathSegments
    have htl : (p ++ ".git").toList = p.toList ++ ['.', 'g', 'i', 't'] :=
      String.data_append ..
    rw [htl, stripDotGit_append_git, stripDotGit_of_not_suffix hgit]
  have hsl : cleanPathSegments (p ++ String.mk (List.replicate (k + 1) '/'))
      = cleanPathSegments p := by
    unfold cleanPathSegments
    have htl : (p ++ String.mk (List.replicate (k + 1) '/')).toList
        = p.toList ++ List.replicate (k + 1) '/' :=
      String.data_append ..
    rw [htl, stripDotGit_of_not_suffix (dotgit_not_suffix_slashes p.toList k),
      stripSlashes_append_slashes, stripDotGit_of_not_suffix hgit]
  refine ⟨?_, ?_, ?_⟩ <;>
    simp [parseGitHubUrl, ghUrl, hgit2, hsl, hsegs]

/-- Witness for C4 (amended) at a concrete input. -/
theorem parseGitHubUrl_amended_witness :
    parseGitHubUrl (ghUrl "/facebook/react") = some { owner := "facebook", repo := "react" } ∧
    parseGitHubUrl (ghUrl ("/facebook/react" ++ ".git"))
        = some { owner := "facebook", repo := "react" } ∧
    parseGitHubUrl (ghUrl ("/facebook/react" ++ String.mk (List.replicate (0 + 1) '/')))
        = some { owner := "facebook", repo := "react" } :=
  parseGitHubUrl_amended "/facebook/react" "facebook" "react" [] 0 (by decide) (by decide)

/-! ## Changelog assembler (`generateChangelogText`, github.ts:171-178) -/

/-- One rendered entry: a heading from `release.name || release.tag_name` plus
the tag in parentheses, then `release.body || 'No release notes provided.'`,
each followed by a blank line. -/
def changelogEntry (release : GitHubRelease) : String :=
  "## " ++ (if release.name = "" then release.tag_name else release.name)
    ++ " (" ++ release.tag_name ++ ")\n\n"
    ++ (if release.body = "" then "No release notes provided." else release.body)
    ++ "\n\n"

/-- The joiner passed to `Array.prototype.join` at github.ts:177. -/
def changelogSeparator : String := "---\n\n"

/-- Model of `Array.prototype.join(sep)`. -/
def joinSep (sep : String) : List String → String
  | [] => ""
  | [e] => e
  | e :: rest => e ++ sep ++ joinSep sep rest

/-- Model of `generateChangelogText` (github.ts:171-178). -/
def generateChangelogText (releases : List GitHubRelease) : String :=
  if releases.isEmpty then "No releases selected."
  else joinSep changelogSeparator (releases.map changelogEntry)

/-! ## Claim C3 -/

/-- A release whose body contains the changelog separator. -/
def relC3 : GitHubRelease := mkRel 1 "v1" 0 "before---\n\nafter"

/-- C3 counterexample: splitting the assembled changelog of the single release
`relC3` on the separator yields 2 segments, not 1, because the release body
itself contains the separator — the claimed segment count fails. -/
theorem generateChangelogText_split_counterexample :
    (jsSplit (generateChangelogText [relC3]) changelogSeparator).length
      ≠ ([relC3] : List GitHubRelease).length := by
  decide

/-! Characterisation of `findSubIdx` as the leftmost occurrence. -/

theorem findSubIdx_some_isPrefix {pat : List Char} :
    ∀ {s : List Char} {i : Nat}, findSubIdx pat s = some i →
      pat.isPrefixOf (s.drop i) = true := by
  intro s
  induction s with
  | nil =>
      intro i h
      unfold findSubIdx at h
      by_cases hp : pat.isEmpty
      · rw [if_pos hp] at h
        cases h
        cases pat with
        | nil => rfl
        | cons c cs => cases hp
      · rw [if_neg hp] at h
        cases h
  | cons c rest ih =>
      intro i h
      unfold findSubIdx at h
      by_cases hp : pat.isPrefixOf (c :: rest) = true
      · rw [if_pos hp] at h
        cases h
        exact hp
      · rw [if_neg hp] at h
        cases hfr : findSubIdx pat rest with
        | none => rw [hfr] at h; cases h
        | some j =>
            rw [hfr] at h
            cases h
            exact ih hfr

theorem findSubIdx_min {pat : List Char} :
    ∀ {s : List Char} {i : Nat}, findSubIdx pat s = some i →
      ∀ j < i, pat.isPrefixOf (s.drop j) = false := by
  intro s
  induction s with
  | nil =>
      intro i h j hj
      unfold findSubIdx at h
      by_cases hp : pat.isEmpty
      · rw [if_pos hp] at h
        cases h
        omega
      · rw [if_neg hp] at h
        cases h
  | cons c rest ih =>
      intro i h j hj
      unfold findSubIdx at h
      by_cases hp : pat.isPrefixOf (c :: rest) = true
      · rw [if_pos hp] at h
        cases h
        omega
      · rw [if_neg hp] at h
        cases hfr : findSubIdx pat rest with
        | none => rw [hfr] at h; cases h
        | some m =>
            rw [hfr] at h
            simp only [Option.map_some'] at h
            cases h
            cases j with
            | zero =>
                simpa using Bool.not_eq_true _ |>.mp hp
            | succ n =>
                exact ih hfr n (by omega)

theorem findSubIdx_none_prefix {pat : List Char} :
    ∀ {s : List Char}, findSubIdx pat s = none →
      ∀ j, pat.isPrefixOf (s.drop j) = false := by
  intro s
  induction s with
  | nil =>
      intro h j
      unfold findSubIdx at h
      by_cases hp : pat.isEmpty
      · rw [if_pos hp] at h; cases h
      · cases pat with
        | nil => cases hp rfl
        | cons p ps => simp
  | cons c rest ih =>
      intro h j
      unfold findSubIdx at h
      by_cases hp : pat.isPrefixOf (c :: rest) = true
      · rw [if_pos hp] at h; cases h
      · rw [if_neg hp] at h
        cases hfr : findSubIdx pat rest with
        | none =>
            cases j with
            | zero => simpa using Bool.not_eq_true _ |>.mp hp
            | succ n => exact ih hfr n
        | some m => rw [hfr] at h; cases h

theorem findSubIdx_none_of_not_infixP {pat e : List Char} (he : ¬ pat <:+: e) :
    findSubIdx pat e = none := by
  cases hf : findSubIdx pat e with
  | none => rfl
  | some i =>
      exfalso
      apply he
      have hp := findSubIdx_some_isPrefix hf
      rw [List.isPrefixOf_iff_prefix] at hp
      exact List.infix_iff_prefix_suffix.mpr ⟨e.drop i, hp, List.drop_suffix i e⟩

/-! A border-free separator admits no occurrence straddling a join boundary. -/

/-- Check that `sep` has no nonempty proper border: no `0 < a < sep.length` with
`sep.drop a = sep.take (sep.length - a)`. -/
def borderFreeB (sep : List Char) : Bool :=
  (List.range sep.length).all fun a => a == 0 || !(sep.drop a == sep.take (sep.length - a))

theorem no_occurrence_in_left {sep e t : List Char}
    (hb : borderFreeB sep = true) (he : ¬ sep <:+: e) :
    ∀ j < e.length, sep.isPrefixOf ((e ++ (sep ++ t)).drop j) = false := by
  intro j hj
  by_contra hocc
  rw [Bool.not_eq_false, List.isPrefixOf_iff_prefix] at hocc
  rw [List.drop_append_of_le_length (Nat.le_of_lt hj)] at hocc
  obtain ⟨u, hu⟩ := hocc
  have hlen : (e.drop j).length = e.length - j := List.length_drop j e
  by_cases hcase : sep.length ≤ e.length - j
  · -- the occurrence fits inside e: sep is a prefix of e.drop j, hence an infix of e
    apply he
    have htake := congrArg (List.take sep.length) hu
    rw [List.take_append_of_le_length (le_refl _),
        List.take_append_of_le_length (by omega : sep.length ≤ (e.drop j).length),
        List.take_of_length_le (le_refl _ : sep.length ≤ sep.length)] at htake
    have hpre : sep <+: e.drop j := htake ▸ List.take_prefix sep.length (e.drop j)
    exact List.infix_iff_prefix_suffix.mpr ⟨e.drop j, hpre, List.drop_suffix j e⟩
  · -- the occurrence straddles the boundary: sep would have a nonempty border
    push_neg at hcase
    set a := e.length - j with ha
    have ha0 : 0 < a := by omega
    have hdrop := congrArg (List.drop a) hu
    rw [List.drop_append_of_le_length (by omega : a ≤ sep.length),
        List.drop_left' (by omega : (e.drop j).length = a)] at hdrop
    have htk := congrArg (List.take (sep.length - a)) hdrop
    rw [List.take_append_of_le_length (by simp [List.length_drop] : sep.length - a ≤ (sep.drop a).length),
        List.take_of_length_le (by simp [List.length_drop] : (sep.drop a).length ≤ sep.length - a),
        List.take_append_of_le_length (by omega : sep.length - a ≤ sep.length)] at htk
    have hball := List.all_eq_true.mp hb a (List.mem_range.mpr (by omega))
    rw [Bool.or_eq_true] at hball
    rcases hball with h0 | hne
    · simp at h0
      omega
    · rw [Bool.not_eq_eq_eq_not, Bool.not_true, beq_eq_false_iff_ne] at hne
      exact hne htk

theorem findSubIdx_boundary {sep e t : List Char} (hsep : sep ≠ [])
    (hb : borderFreeB sep = true) (he : ¬ sep <:+: e) :
    findSubIdx sep (e ++ (sep ++ t)) = some e.length := by
  have hpre : sep.isPrefixOf ((e ++ (sep ++ t)).drop e.length) = true := by
    rw [List.drop_left]
    exact List.isPrefixOf_iff_prefix.mpr (List.prefix_append sep t)
  cases hf : findSubIdx sep (e ++ (sep ++ t)) with
  | none =>
      have := findSubIdx_none_prefix hf e.length
      rw [hpre] at this
      cases this
  | some i =>
      rcases Nat.lt_trichotomy i e.length with hlt | heq | hgt
      · have h1 := findSubIdx_some_isPrefix hf
        have h2 := no_occurrence_in_left (t := t) hb he i hlt
        rw [h1] at h2
        cases h2
      · rw [heq]
      · have := findSubIdx_min hf e.length hgt
        rw [hpre] at this
        cases this

theorem findSubIdx_le {sep s : List Char} {i : Nat} (hsep : sep ≠ [])
    (h : findSubIdx sep s = some i) : i + sep.length ≤ s.length := by
  have hp := findSubIdx_some_isPrefix h
  rw [List.isPrefixOf_iff_prefix] at hp
  have h1 := List.IsPrefix.length_le hp
  rw [List.length_drop] at h1
  have h2 : 0 < sep.length := List.length_pos.mpr hsep
  omega

/-! `jsSplitAux` is fuel-irrelevant above the string length. -/

theorem jsSplitAux_nil {sep : List Char} (hsep : sep ≠ []) (f : Nat) :
    jsSplitAux sep f [] = [[]] := by
  cases f with
  | zero => rfl
  | succ m =>
      unfold jsSplitAux
      rw [findSubIdx_none_of_not_infixP]
      intro hinf
      have := List.IsInfix.length_le hinf
      simp at this
      exact hsep this

theorem jsSplitAux_congr {sep : List Char} (hsep : sep ≠ []) :
    ∀ (n : Nat) (s : List Char), s.length ≤ n →
      ∀ (f1 f2 : Nat), s.length ≤ f1 → s.length ≤ f2 →
        jsSplitAux sep f1 s = jsSplitAux sep f2 s := by
  intro n
  induction n with
  | zero =>
      intro s hs f1 f2 _ _
      rw [List.length_eq_zero.mp (Nat.le_zero.mp hs)]
      rw [jsSplitAux_nil hsep, jsSplitAux_nil hsep]
  | succ m ih =>
      intro s hs f1 f2 h1 h2
      cases hsnil : s with
      | nil => rw [jsSplitAux_nil hsep, jsSplitAux_nil hsep]
      | cons c cs =>
          have hpos : 0 < s.length := by rw [hsnil]; simp
          rw [← hsnil] at *
          cases f1 with
          | zero => omega
          | succ g1 =>
              cases f2 with
              | zero => omega
              | succ g2 =>
                  unfold jsSplitAux
                  cases hf : findSubIdx sep s with
                  | none => rfl
                  | some i =>
                      have hbound := findSubIdx_le hsep hf
                      have hslen : (s.drop (i + sep.length)).length = s.length - (i + sep.length) :=
                        List.length_drop _ _
                      have hsep1 : 0 < sep.length := List.length_pos.mpr hsep
                      show List.take i s :: jsSplitAux sep g1 (s.drop (i + sep.length))
                          = List.take i s :: jsSplitAux sep g2 (s.drop (i + sep.length))
                      rw [ih (s.drop (i + sep.length)) (by omega) g1 g2 (by omega) (by omega)]

theorem jsSplitAux_step {sep s : List Char} {i : Nat} (fuel : Nat)
    (hf : findSubIdx sep s = some i) :
    jsSplitAux sep (fuel + 1) s
      = s.take i :: jsSplitAux sep fuel (s.drop (i + sep.length)) := by
  simp [jsSplitAux, hf]

theorem jsSplitList_cons {sep e t : List Char} (hsep : sep ≠ [])
    (hb : borderFreeB sep = true) (he : ¬ sep <:+: e) :
    jsSplitList sep (e ++ (sep ++ t)) = e :: jsSplitList sep t := by
  have hne : sep.isEmpty = false := by
    cases sep with
    | nil => cases hsep rfl
    | cons c cs => rfl
  unfold jsSplitList
  rw [if_neg (by rw [hne]; exact Bool.false_ne_true), if_neg (by rw [hne]; exact Bool.false_ne_true)]
  have hsep1 : 0 < sep.length := List.length_pos.mpr hsep
  have hL : (e ++ (sep ++ t)).length = e.length + sep.length + t.length := by
    simp [List.length_append]
    omega
  cases hLs : (e ++ (sep ++ t)).length with
  | zero => omega
  | succ m =>
      rw [jsSplitAux_step m (findSubIdx_boundary hsep hb he)]
      rw [List.take_left e (sep ++ t)]
      rw [show (e ++ (sep ++ t)).drop (e.length + sep.length) = t from by
        rw [← List.append_assoc, List.drop_left' (by simp [List.length_append])]]
      rw [jsSplitAux_congr hsep (m + 1) t (by omega) m t.length (by omega) (le_refl _)]

theorem jsSplitList_single {sep e : List Char} (hsep : sep ≠ []) (he : ¬ sep <:+: e) :
    jsSplitList sep e = [e] := by
  have hne : sep.isEmpty = false := by
    cases sep with
    | nil => cases hsep rfl
    | cons c cs => rfl
  unfold jsSplitList
  rw [if_neg (by rw [hne]; exact Bool.false_ne_true)]
  cases hL : e.length with
  | zero => rfl
  | succ m =>
      unfold jsSplitAux
      rw [findSubIdx_none_of_not_infixP he]

/-- The char-list form of `Array.prototype.join`. -/
def intercalChars (sep : List Char) : List (List Char) → List Char
  | [] => []
  | [e] => e
  | e :: rest => e ++ (sep ++ intercalChars sep rest)

theorem jsSplitList_intercal {sep : List Char} (hsep : sep ≠ [])
    (hb : borderFreeB sep = true) :
    ∀ es : List (List Char), es ≠ [] → (∀ e ∈ es, ¬ sep <:+: e) →
      jsSplitList sep (intercalChars sep es) = es := by
  intro es
  induction es with
  | nil => intro h; cases h rfl
  | cons e rest ih =>
      intro _ hmem
      cases rest with
      | nil =>
          exact jsSplitList_single hsep (hmem e (List.mem_cons_self e []))
      | cons f rs =>
          show jsSplitList sep (e ++ (sep ++ intercalChars sep (f :: rs))) = _
          rw [jsSplitList_cons hsep hb (hmem e (List.mem_cons_self e _))]
          rw [ih (by simp) (fun x hx => hmem x (List.mem_cons_of_mem e hx))]

theorem joinSep_toList (sep : String) :
    ∀ es : List String,
      (joinSep sep es).toList = intercalChars sep.toList (es.map String.toList)
  | [] => rfl
  | [e] => rfl
  | e :: f :: rest => by
      show (e ++ sep ++ joinSep sep (f :: rest)).toList = _
      have h1 : (e ++ sep ++ joinSep sep (f :: rest)).data
          = (e.data ++ sep.data) ++ (joinSep sep (f :: rest)).data := by
        rw [← String.data_append, ← String.data_append]
      rw [show (e ++ sep ++ joinSep sep (f :: rest)).toList
            = (e.data ++ sep.data) ++ (joinSep sep (f :: rest)).data from h1]
      rw [show (joinSep sep (f :: rest)).data = (joinSep sep (f :: rest)).toList from rfl]
      rw [joinSep_toList sep (f :: rest)]
      show _ = e.data ++ (sep.data ++ intercalChars sep.data ((f :: rest).map String.toList))
      rw [List.append_assoc]
      rfl

theorem mk_toList (s : String) : String.mk s.toList = s := rfl

/-- C3 amended: for every non-empty release list in which no rendered entry
contains the separator "---\n\n", splitting the assembled changelog on the
separator yields exactly the rendered entries: one segment per input release,
in input order (hence exactly `releases.length` segments).  Without the
no-separator-in-entry condition the segment count can exceed the release count
(see the counterexample). -/
theorem generateChangelogText_split (rs : List GitHubRelease) (hne : rs ≠ [])
    (h : ∀ r ∈ rs, ¬ changelogSeparator.toList <:+: (changelogEntry r).toList) :
    jsSplit (generateChangelogText rs) changelogSeparator = rs.map changelogEntry := by
  unfold jsSplit generateChangelogText
  rw [if_neg (by simp [List.isEmpty_iff, hne])]
  rw [show (joinSep changelogSeparator (rs.map changelogEntry)).toList
        = intercalChars changelogSeparator.toList ((rs.map changelogEntry).map String.toList)
      from joinSep_toList ..]
  rw [jsSplitList_intercal (by decide) (by decide) _
    (by simp [hne]) ?hmem]
  case hmem =>
    intro e hemem
    rw [List.map_map, List.mem_map] at hemem
    obtain ⟨r, hr, hre⟩ := hemem
    rw [← hre]
    exact h r hr
  rw [List.map_map, List.map_map]
  have hcomp : ((String.mk ∘ String.toList) ∘ changelogEntry) = changelogEntry := by
    funext r
    exact mk_toList _
  rw [hcomp]

/-- Witness for C3 (amended) at a concrete input. -/
theorem generateChangelogText_split_witness :
    jsSplit (generateChangelogText [mkRel 1 "v1" 5 "alpha notes", mkRel 2 "v2" 9 "beta notes"])
        changelogSeparator
      = [mkRel 1 "v1" 5 "alpha notes", mkRel 2 "v2" 9 "beta notes"].map changelogEntry :=
  generateChangelogText_split [mkRel 1 "v1" 5 "alpha notes", mkRel 2 "v2" 9 "beta notes"]
    (by decide) (by decide)

end BreakingChanges
